import Mathlib

/-!
Shallow embedding of the Kistenliste repository (src/streamlit_app.py and
src/kistenliste_analyzer.py): data loading and per-person aggregation of
"Kisten" (box) entries, with apportionment of shared entries, payment
classification, ranking and open-box tables.  Spreadsheet rows become Lean
structures; pandas DataFrames become lists; float fractions become ℚ;
Python dicts (insertion-ordered) become association lists.
-/

namespace Kistelnliste

/-- Whitespace as stripped by Python `str.strip()` (restricted to the ASCII
whitespace that can occur in the cells). -/
def pySpace (c : Char) : Bool := c = ' ' || c = '\t' || c = '\n' || c = '\r'

/-- Python `str.strip()`: drop leading and trailing whitespace. -/
def pyStrip (s : String) : String :=
  ⟨((s.data.dropWhile pySpace).reverse.dropWhile pySpace).reverse⟩

/-- Python `str.lower()` (ASCII case folding, as used on the name cells). -/
def pyLower (s : String) : String := ⟨s.data.map Char.toLower⟩

/-- Helper for `pySplitComma`: split a character list at every comma,
`acc` holding the current piece reversed. -/
def splitCommaAux : List Char → List Char → List String
  | [], acc => [⟨acc.reverse⟩]
  | c :: cs, acc =>
    if c = ',' then ⟨acc.reverse⟩ :: splitCommaAux cs [] else splitCommaAux cs (c :: acc)

/-- Python `s.split(",")`: pieces between commas; the empty string yields
`[""]`. -/
def pySplitComma (s : String) : List String := splitCommaAux s.data []

/-- One raw spreadsheet row before `load_data` cleans it: columns Name,
Bezahlt (payment marker), Grund (reason) and Anmerkung (optional free text).
A missing cell is `none` (pandas NaN). -/
structure RawEntry where
  name : String
  bezahlt : Option String
  grund : Option String
  anmerkung : Option String
deriving DecidableEq, Repr

/-- One cleaned row after `load_data`: `Name` stripped, `Bezahlt` filled with
"" and stripped, plus the derived `Bezahlt_Status` column. -/
structure Row where
  name : String
  bezahlt : String
  status : String
  grund : Option String
  anmerkung : Option String
deriving DecidableEq, Repr

/-- Cleaning of one row inside `load_data` (both variants, identical code):
`df["Name"].str.strip()`, `df["Bezahlt"].fillna("").str.strip()`, and
`Bezahlt_Status = "Bezahlt" if x == "J" else "Offen"`. -/
def loadRow (e : RawEntry) : Row :=
  let b := pyStrip (e.bezahlt.getD "")
  { name := pyStrip e.name
    bezahlt := b
    status := if b = "J" then "Bezahlt" else "Offen"
    grund := e.grund
    anmerkung := e.anmerkung }

/-- The shared cleaning pipeline of `load_data` applied to the whole sheet. -/
def load_data (input : List RawEntry) : List Row := input.map loadRow

/-- Outcome of the underlying spreadsheet read (`pd.read_excel`): either the
raw rows, or an exception message. -/
inductive LoadOutcome where
  | success : List RawEntry → LoadOutcome
  | failure : String → LoadOutcome
deriving DecidableEq, Repr

/-- `load_data` of src/streamlit_app.py: the whole body sits in a
`try/except` which on failure calls `st.error(...)` and returns `None`.
Result: the optional table together with the list of user-visible error
messages emitted. -/
def streamlit_load_data : LoadOutcome → Option (List Row) × List String
  | .success es => (some (load_data es), [])
  | .failure msg => (none, ["❌ Fehler beim Laden der Datei: " ++ msg])

/-- `load_data` of src/kistenliste_analyzer.py: no `try/except`, the
exception propagates to the caller (`Except.error`). -/
def analyzer_load_data : LoadOutcome → Except String (List Row)
  | .success es => .ok (load_data es)
  | .failure msg => .error msg

/-- The sentinel name tested by `create_open_boxes_table`:
`name.lower() == "geteilte kisten"`. -/
def sharedSentinel : String := "geteilte kisten"

/-- `str(row.get("Anmerkung", ""))` on an optional cell: a pandas NaN prints
as the string "nan", which the source then filters out explicitly. -/
def anmerkungStr : Option String → String
  | none => "nan"
  | some s => s

/-- `[n.strip() for n in anmerkung.split(",") if n.strip()]`. -/
def parseSharedNames (a : String) : List String :=
  ((pySplitComma a).map pyStrip).filter (fun n => n ≠ "")

/-- `name_counts.get(k, 0) + v` stored back into the dict: Python dicts keep
insertion order, updates keep the position, new keys go to the end. -/
def addCount : List (String × ℚ) → String → ℚ → List (String × ℚ)
  | [], k, v => [(k, v)]
  | (k', v') :: rest, k, v =>
    if k' = k then (k', v' + v) :: rest else (k', v') :: addCount rest k v

/-- The body of the `for _, row in open_df.iterrows()` loop of
`create_open_boxes_table`: shared entries are apportioned over the names
parsed from the Anmerkung, ordinary entries credit one full box. -/
def processOpenRow (m : List (String × ℚ)) (r : Row) : List (String × ℚ) :=
  let name := pyStrip r.name
  if pyLower name = sharedSentinel then
    let a := anmerkungStr r.anmerkung
    if a ≠ "" ∧ a ≠ "nan" then
      let shared := parseSharedNames a
      let fraction : ℚ := if shared.length = 0 then 0 else 1 / shared.length
      shared.foldl (fun acc n => addCount acc n fraction) m
    else m
  else
    addCount m name 1

/-- The `name_counts` dict of `create_open_boxes_table`: the loop above run
over the rows with `Bezahlt_Status == "Offen"`. -/
def nameCounts (df : List Row) : List (String × ℚ) :=
  (df.filter (fun r => r.status == "Offen")).foldl processOpenRow []

/-- `round(x, 2)`: rounding to two decimal places. -/
def round2 (q : ℚ) : ℚ := round (q * 100) / 100

/-- `result.sort_values("Offene Kisten", ascending=False)`. -/
def sortOpenDesc (m : List (String × ℚ)) : List (String × ℚ) :=
  m.mergeSort (fun a b => decide (b.2 ≤ a.2))

/-- `create_open_boxes_table` of src/streamlit_app.py: accumulate, sort by
value descending, then round each value to 2 decimals. -/
def create_open_boxes_table (df : List Row) : List (String × ℚ) :=
  (sortOpenDesc (nameCounts df)).map (fun p => (p.1, round2 p.2))

/-- Total credit a dict holds for one name (sum of the matching values;
keys are unique, so this is the single stored value or 0). -/
def tallyOf (m : List (String × ℚ)) (n : String) : ℚ :=
  ((m.filter (fun p => p.1 == n)).map Prod.snd).sum

/-- Sum of all credits in the dict. -/
def grandTotal (m : List (String × ℚ)) : ℚ := (m.map Prod.snd).sum

/-- Helper for `firstAppearanceUniques`: keep the first occurrence of every
element, `seen` holding the elements already emitted. -/
def uniqAux (seen : List String) : List String → List String
  | [] => []
  | n :: rest => if n ∈ seen then uniqAux seen rest else n :: uniqAux (n :: seen) rest

/-- The distinct values of a column in order of first appearance — the key
order produced by the pandas value-counting hash table (and the value set
counted by `nunique`). -/
def firstAppearanceUniques (names : List String) : List String := uniqAux [] names

/-- `df["Name"].value_counts()`: each distinct name with its number of
occurrences, sorted by count descending with a stable sort, so that equal
counts stay in first-appearance order. -/
def value_counts (df : List Row) : List (String × ℕ) :=
  let names := df.map Row.name
  ((firstAppearanceUniques names).map (fun n => (n, names.count n))).mergeSort
    (fun a b => decide (b.2 ≤ a.2))

/-- `df["Name"].nunique()`: number of distinct names. -/
def nunique (df : List Row) : ℕ := (firstAppearanceUniques (df.map Row.name)).length

/-- One row of the ranking table: Rang, Medaille, Name, Anzahl Kisten. -/
structure RankRow where
  rang : ℕ
  medaille : String
  name : String
  anzahl : ℕ
deriving DecidableEq, Repr

/-- `medals = {1: "🥇", 2: "🥈", 3: "🥉"}; medals.get(x, "")`. -/
def medalFor (r : ℕ) : String :=
  if r = 1 then "🥇" else if r = 2 then "🥈" else if r = 3 then "🥉" else ""

/-- Attach consecutive rank numbers (starting at `i`) and medals to the
value-counts rows: `ranking["Rang"] = range(1, len(ranking) + 1)`. -/
def withRanks : ℕ → List (String × ℕ) → List RankRow
  | _, [] => []
  | i, (n, c) :: rest => ⟨i, medalFor i, n, c⟩ :: withRanks (i + 1) rest

/-- `create_ranking_table` (identical in both variants): value counts of the
Name column, rank numbers 1..n in listed order, medals for ranks 1-3. -/
def create_ranking_table (df : List Row) : List RankRow := withRanks 1 (value_counts df)

/-- `df[df["Bezahlt_Status"] == "Bezahlt"].groupby("Name").size()` looked up
at one name (0 when absent). -/
def countBezahlt (df : List Row) (p : String) : ℕ :=
  df.countP (fun r => r.status == "Bezahlt" && r.name == p)

/-- `df[df["Bezahlt_Status"] == "Offen"].groupby("Name").size()` looked up
at one name (0 when absent). -/
def countOffen (df : List Row) (p : String) : ℕ :=
  df.countP (fun r => r.status == "Offen" && r.name == p)

/-- Number of entries carrying one name. -/
def countTotal (df : List Row) (p : String) : ℕ :=
  df.countP (fun r => r.name == p)

/-- One bar of the per-person chart of `create_person_chart` /
`create_visualizations`: Name, Bezahlt, Offen and the derived Gesamt. -/
structure PersonStat where
  name : String
  bezahlt : ℕ
  offen : ℕ
  gesamt : ℕ
deriving DecidableEq, Repr

/-- The `name_stats` frame of `create_person_chart` (same code in
`create_visualizations`): one row per distinct name (taken from the
value-counts index), Bezahlt/Offen from the per-status group sizes,
`Gesamt = Bezahlt + Offen`, sorted by Gesamt ascending. -/
def create_person_chart (df : List Row) : List PersonStat :=
  (((value_counts df).map Prod.fst).map (fun n =>
    { name := n
      bezahlt := countBezahlt df n
      offen := countOffen df n
      gesamt := countBezahlt df n + countOffen df n : PersonStat })).mergeSort
    (fun a b => decide (a.gesamt ≤ b.gesamt))

/-- `len(df[df["Bezahlt_Status"] == "Offen"])`: the global unpaid count. -/
def offenCountGlobal (df : List Row) : ℕ :=
  (df.filter (fun r => r.status == "Offen")).length

/-- Index of the first occurrence of a name in the input column (length of
the list when absent): the "original relative order" of persons. -/
def firstIdx (l : List String) (n : String) : ℕ :=
  (l.takeWhile (fun x => x != n)).length

/-- The key column of the counts dict. -/
def keysOf (m : List (String × ℚ)) : List String := m.map Prod.fst

/-- The open credit the processing of one shared (sentinel) row grants to
one person `x`: the number of times `x` is listed in the Anmerkung times
1/N, where N is the number of listed participants (0 without a usable
Anmerkung). -/
def apportionCredit (r : Row) (x : String) : ℚ :=
  let a := anmerkungStr r.anmerkung
  if a ≠ "" ∧ a ≠ "nan" then
    let shared := parseSharedNames a
    if shared.length = 0 then 0 else shared.count x * (1 / shared.length)
  else 0

/-- The Name column of the table. -/
def namesOf (df : List Row) : List String := df.map Row.name

/-- The value counts before sorting: each distinct name, in first-appearance
order, paired with its number of occurrences. -/
def baseCounts (df : List Row) : List (String × ℕ) :=
  (firstAppearanceUniques (namesOf df)).map (fun n => (n, (namesOf df).count n))

end Kistelnliste

namespace Kistelnliste

/-! ### Facts about the counts dict -/

theorem keysOf_cons (a : String) (b : ℚ) (t : List (String × ℚ)) :
    keysOf ((a, b) :: t) = a :: keysOf t := rfl

theorem tallyOf_nil (n : String) : tallyOf [] n = 0 := rfl

theorem tallyOf_cons (a : String) (b : ℚ) (t : List (String × ℚ)) (n : String) :
    tallyOf ((a, b) :: t) n = (if a = n then b else 0) + tallyOf t n := by
  by_cases h : a = n <;> simp [tallyOf, h]

theorem tallyOf_eq_zero_of_not_mem {m : List (String × ℚ)} {k : String}
    (h : k ∉ keysOf m) : tallyOf m k = 0 := by
  induction m with
  | nil => rfl
  | cons p t ih =>
    obtain ⟨a, b⟩ := p
    simp only [keysOf_cons, List.mem_cons, not_or] at h
    rw [tallyOf_cons, if_neg (fun hh => h.1 hh.symm), ih h.2, add_zero]

theorem tallyOf_addCount (m : List (String × ℚ)) (k : String) (v : ℚ) (n : String) :
    tallyOf (addCount m k v) n = tallyOf m n + if n = k then v else 0 := by
  induction m with
  | nil =>
    by_cases h : k = n
    · subst h; simp [addCount, tallyOf_cons, tallyOf_nil]
    · have h' : ¬ n = k := fun hh => h hh.symm
      simp [addCount, tallyOf_cons, tallyOf_nil, h, h']
  | cons p t ih =>
    obtain ⟨a, b⟩ := p
    by_cases hak : a = k
    · subst hak
      by_cases han : a = n
      · subst han; simp [addCount, tallyOf_cons]; ring
      · have h' : ¬ n = a := fun hh => han hh.symm
        simp [addCount, tallyOf_cons, han, h']
    · simp only [addCount, if_neg hak, tallyOf_cons, ih]; ring

theorem grandTotal_nil : grandTotal [] = 0 := rfl

theorem grandTotal_cons (a : String) (b : ℚ) (t : List (String × ℚ)) :
    grandTotal ((a, b) :: t) = b + grandTotal t := by simp [grandTotal]

theorem grandTotal_addCount (m : List (String × ℚ)) (k : String) (v : ℚ) :
    grandTotal (addCount m k v) = grandTotal m + v := by
  induction m with
  | nil => simp [addCount, grandTotal]
  | cons p t ih =>
    obtain ⟨a, b⟩ := p
    by_cases h : a = k
    · subst h; simp [addCount, grandTotal_cons]; ring
    · simp only [addCount, if_neg h, grandTotal_cons, ih]; ring

theorem mem_keysOf_addCount {x : String} (m : List (String × ℚ)) (k : String) (v : ℚ) :
    x ∈ keysOf (addCount m k v) ↔ x ∈ keysOf m ∨ x = k := by
  induction m with
  | nil => simp [addCount, keysOf]
  | cons p t ih =>
    obtain ⟨a, b⟩ := p
    by_cases h : a = k
    · subst h; simp [addCount, keysOf_cons]; tauto
    · simp only [addCount, if_neg h, keysOf_cons, List.mem_cons, ih]; tauto

theorem nodup_keysOf_addCount (m : List (String × ℚ)) (k : String) (v : ℚ)
    (h : (keysOf m).Nodup) : (keysOf (addCount m k v)).Nodup := by
  induction m with
  | nil => simp [addCount, keysOf]
  | cons p t ih =>
    obtain ⟨a, b⟩ := p
    by_cases hak : a = k
    · subst hak; simpa [addCount, keysOf_cons] using h
    · simp only [keysOf_cons, List.nodup_cons] at h
      simp only [addCount, if_neg hak, keysOf_cons, List.nodup_cons]
      refine ⟨fun hx => ?_, ih h.2⟩
      rcases (mem_keysOf_addCount t k v).1 hx with h1 | h1
      · exact h.1 h1
      · exact hak h1

theorem tallyOf_eq_of_mem {m : List (String × ℚ)} (h : (keysOf m).Nodup)
    {k : String} {v : ℚ} (hkv : (k, v) ∈ m) : tallyOf m k = v := by
  induction m with
  | nil => simp at hkv
  | cons p t ih =>
    obtain ⟨a, b⟩ := p
    simp only [keysOf_cons, List.nodup_cons] at h
    rcases List.mem_cons.1 hkv with h1 | h1
    · injection h1 with hk hv
      subst hk; subst hv
      rw [tallyOf_cons, if_pos rfl, tallyOf_eq_zero_of_not_mem h.1, add_zero]
    · have hak : a ≠ k := by
        intro hh
        exact h.1 (hh ▸ List.mem_map_of_mem Prod.fst h1)
      rw [tallyOf_cons, if_neg hak, ih h.2 h1, zero_add]

/-! ### Folding `addCount` over a participant list -/

theorem tallyOf_foldl_addCount (ns : List String) (f : ℚ) (m : List (String × ℚ))
    (x : String) :
    tallyOf (ns.foldl (fun acc n => addCount acc n f) m) x =
      tallyOf m x + ns.count x * f := by
  induction ns generalizing m with
  | nil => simp
  | cons n ns ih =>
    simp only [List.foldl_cons, ih, tallyOf_addCount]
    by_cases h : x = n
    · subst h; simp [List.count_cons]; ring
    · simp [List.count_cons, h]

theorem grandTotal_foldl_addCount (ns : List String) (f : ℚ) (m : List (String × ℚ)) :
    grandTotal (ns.foldl (fun acc n => addCount acc n f) m) =
      grandTotal m + ns.length * f := by
  induction ns generalizing m with
  | nil => simp
  | cons n ns ih =>
    simp only [List.foldl_cons, ih, grandTotal_addCount, List.length_cons]
    push_cast
    ring

theorem mem_keysOf_foldl_addCount {x : String} (ns : List String) (f : ℚ)
    (m : List (String × ℚ)) :
    x ∈ keysOf (ns.foldl (fun acc n => addCount acc n f) m) ↔
      x ∈ keysOf m ∨ x ∈ ns := by
  induction ns generalizing m with
  | nil => simp
  | cons n ns ih =>
    simp only [List.foldl_cons, ih, mem_keysOf_addCount, List.mem_cons]
    tauto

theorem nodup_keysOf_foldl_addCount (ns : List String) (f : ℚ)
    (m : List (String × ℚ)) (h : (keysOf m).Nodup) :
    (keysOf (ns.foldl (fun acc n => addCount acc n f) m)).Nodup := by
  induction ns generalizing m with
  | nil => exact h
  | cons n ns ih => exact ih _ (nodup_keysOf_addCount m n f h)

end Kistelnliste

namespace Kistelnliste

/-! ### Structure of `nameCounts` and `processOpenRow` -/

theorem nameCounts_append (df₁ df₂ : List Row) :
    nameCounts (df₁ ++ df₂) =
      (df₂.filter (fun r => r.status == "Offen")).foldl processOpenRow (nameCounts df₁) := by
  simp [nameCounts, List.filter_append, List.foldl_append]

theorem nameCounts_append_offen (df : List Row) (r : Row) (h : r.status = "Offen") :
    nameCounts (df ++ [r]) = processOpenRow (nameCounts df) r := by
  simp [nameCounts_append, List.filter_cons, h]

theorem pyLower_sharedSentinel : pyLower sharedSentinel = sharedSentinel := by decide

theorem processOpenRow_eq_shared (m : List (String × ℚ)) (r : Row)
    (h : pyLower (pyStrip r.name) = sharedSentinel)
    (h1 : anmerkungStr r.anmerkung ≠ "") (h2 : anmerkungStr r.anmerkung ≠ "nan") :
    processOpenRow m r =
      (parseSharedNames (anmerkungStr r.anmerkung)).foldl
        (fun acc n => addCount acc n
          (if (parseSharedNames (anmerkungStr r.anmerkung)).length = 0 then 0
           else 1 / (parseSharedNames (anmerkungStr r.anmerkung)).length)) m := by
  simp [processOpenRow, h, h1, h2]

theorem processOpenRow_eq_skip (m : List (String × ℚ)) (r : Row)
    (h : pyLower (pyStrip r.name) = sharedSentinel)
    (hskip : anmerkungStr r.anmerkung = "" ∨ anmerkungStr r.anmerkung = "nan") :
    processOpenRow m r = m := by
  rcases hskip with hs | hs <;> simp [processOpenRow, h, hs]

theorem processOpenRow_eq_normal (m : List (String × ℚ)) (r : Row)
    (h : pyLower (pyStrip r.name) ≠ sharedSentinel) :
    processOpenRow m r = addCount m (pyStrip r.name) 1 := by
  simp [processOpenRow, h]

/-! ### Python `strip` is idempotent -/

theorem dropWhile_head?_false {p : α → Bool} {l : List α} {a : α}
    (h : (l.dropWhile p).head? = some a) : p a = false := by
  have := List.head?_dropWhile_not p l
  rw [h] at this
  exact this

theorem dropWhile_eq_self {p : α → Bool} {l : List α}
    (h : ∀ a, l.head? = some a → p a = false) : l.dropWhile p = l := by
  cases l with
  | nil => rfl
  | cons x t =>
    have := h x rfl
    simp [List.dropWhile_cons, this]

theorem getLast?_dropWhile {p : α → Bool} {l : List α}
    (h : l.dropWhile p ≠ []) : (l.dropWhile p).getLast? = l.getLast? := by
  induction l with
  | nil => simp at h
  | cons x t ih =>
    by_cases hx : p x
    · rw [List.dropWhile_cons_of_pos hx] at h ⊢
      have ht : t ≠ [] := by
        intro he
        subst he
        simp at h
      rw [ih h]
      cases t with
      | nil => exact absurd rfl ht
      | cons y t' => simp [List.getLast?_cons_cons]
    · rw [List.dropWhile_cons_of_neg hx]

theorem pyStrip_data (s : String) :
    (pyStrip s).data = ((s.data.dropWhile pySpace).reverse.dropWhile pySpace).reverse := rfl

theorem pyStrip_idem (s : String) : pyStrip (pyStrip s) = pyStrip s := by
  have key : ∀ l : List Char,
      ((((l.dropWhile pySpace).reverse.dropWhile pySpace).reverse.dropWhile
        pySpace).reverse.dropWhile pySpace).reverse =
      ((l.dropWhile pySpace).reverse.dropWhile pySpace).reverse := by
    intro l
    set u := l.dropWhile pySpace with hu
    set w := u.reverse.dropWhile pySpace with hw
    have hA : w.reverse.dropWhile pySpace = w.reverse := by
      apply dropWhile_eq_self
      intro a ha
      rw [List.head?_reverse] at ha
      have wne : w ≠ [] := by
        intro he
        rw [he] at ha
        simp at ha
      rw [hw, getLast?_dropWhile (hw ▸ wne), List.getLast?_reverse] at ha
      have ha' : (l.dropWhile pySpace).head? = some a := hu ▸ ha
      exact dropWhile_head?_false ha'
    rw [hA, List.reverse_reverse]
    have hB : w.dropWhile pySpace = w := by
      apply dropWhile_eq_self
      intro a ha
      have ha' : (u.reverse.dropWhile pySpace).head? = some a := hw ▸ ha
      exact dropWhile_head?_false ha'
    rw [hB]
  cases s with
  | mk data => exact congrArg String.mk (key data)

theorem parseSharedNames_trimmed {a : String} {n : String}
    (h : n ∈ parseSharedNames a) : pyStrip n = n ∧ n ≠ "" := by
  simp only [parseSharedNames, List.mem_filter, List.mem_map, decide_not] at h
  obtain ⟨⟨piece, _, rfl⟩, hne⟩ := h
  refine ⟨pyStrip_idem piece, ?_⟩
  simpa using hne

/-! ### Sorting and rounding -/

theorem sortOpenDesc_perm (m : List (String × ℚ)) : (sortOpenDesc m).Perm m :=
  List.mergeSort_perm m _

theorem sortOpenDesc_sorted (m : List (String × ℚ)) :
    (sortOpenDesc m).Pairwise (fun a b => b.2 ≤ a.2) := by
  have h : (m.mergeSort (fun a b : String × ℚ => decide (b.2 ≤ a.2))).Pairwise
      (fun a b : String × ℚ => decide (b.2 ≤ a.2) = true) :=
    List.sorted_mergeSort
      (fun a b c hab hbc => by
        simp only [decide_eq_true_eq] at *
        exact le_trans hbc hab)
      (fun a b => by
        rcases le_total a.2 b.2 with h | h <;> simp [h])
      m
  exact h.imp (fun hab => of_decide_eq_true hab)

theorem round2_mono {q r : ℚ} (h : q ≤ r) : round2 q ≤ round2 r := by
  unfold round2
  have h1 : round (q * 100) ≤ round (r * 100) := by
    rw [round_eq, round_eq]
    exact Int.floor_mono (by linarith)
  have h2 : ((round (q * 100) : ℤ) : ℚ) ≤ ((round (r * 100) : ℤ) : ℚ) := by
    exact_mod_cast h1
  linarith

end Kistelnliste

namespace Kistelnliste

theorem apportionCredit_eq_zero_of_no_anmerkung (r : Row) (x : String)
    (hg : ¬(anmerkungStr r.anmerkung ≠ "" ∧ anmerkungStr r.anmerkung ≠ "nan")) :
    apportionCredit r x = 0 := by
  rw [apportionCredit, if_neg hg]

theorem tallyOf_processOpenRow (m : List (String × ℚ)) (r : Row) (x : String) :
    tallyOf (processOpenRow m r) x =
      tallyOf m x +
        (if pyLower (pyStrip r.name) = sharedSentinel then apportionCredit r x
         else if x = pyStrip r.name then 1 else 0) := by
  by_cases h : pyLower (pyStrip r.name) = sharedSentinel
  · rw [if_pos h]
    by_cases hg : anmerkungStr r.anmerkung ≠ "" ∧ anmerkungStr r.anmerkung ≠ "nan"
    · rw [processOpenRow_eq_shared m r h hg.1 hg.2, tallyOf_foldl_addCount]
      congr 1
      rw [apportionCredit, if_pos hg]
      by_cases hL : (parseSharedNames (anmerkungStr r.anmerkung)).length = 0 <;>
        simp [hL]
    · have hgor : anmerkungStr r.anmerkung = "" ∨ anmerkungStr r.anmerkung = "nan" := by
        tauto
      rw [processOpenRow_eq_skip m r h hgor,
        apportionCredit_eq_zero_of_no_anmerkung r x hg, add_zero]
  · rw [if_neg h, processOpenRow_eq_normal m r h, tallyOf_addCount]

/-- C3: after loading, the classification is "Bezahlt" exactly when the
trimmed payment marker is the token "J"; every other value — a blank or a
missing marker included — yields "Offen", and a missing marker is handled
(it defaults to "" and hence to "Offen"). -/
theorem payment_classification (e : RawEntry) :
    ((loadRow e).status = "Bezahlt" ↔ pyStrip (e.bezahlt.getD "") = "J") ∧
    ((loadRow e).status = "Offen" ↔ pyStrip (e.bezahlt.getD "") ≠ "J") ∧
    (e.bezahlt = none → (loadRow e).status = "Offen") := by
  refine ⟨?_, ?_, ?_⟩
  · by_cases h : pyStrip (e.bezahlt.getD "") = "J" <;> simp [loadRow, h]
  · by_cases h : pyStrip (e.bezahlt.getD "") = "J" <;> simp [loadRow, h]
  · intro h
    simp +decide [loadRow, h]

/-- Witness for C3 at a concrete entry with a missing marker. -/
theorem payment_classification_witness :
    (loadRow ⟨"A", none, none, none⟩).status = "Offen" :=
  (payment_classification ⟨"A", none, none, none⟩).2.2 rfl

/-- C7: a failing spreadsheet read makes the interactive variant return the
absent table together with a user-visible error message, while the batch
variant propagates the failure (it can never return a table). -/
theorem load_failure_handling (msg : String) :
    (streamlit_load_data (.failure msg)).1 = none ∧
    (streamlit_load_data (.failure msg)).2 ≠ [] ∧
    (∀ t, analyzer_load_data (.failure msg) ≠ .ok t) ∧
    (∀ es, streamlit_load_data (.success es) = (some (load_data es), []) ∧
      analyzer_load_data (.success es) = .ok (load_data es)) := by
  refine ⟨rfl, by simp [streamlit_load_data], fun t h => ?_, fun es => ⟨rfl, rfl⟩⟩
  simp [analyzer_load_data] at h

/-- Witness for C7 at a concrete failure message. -/
theorem load_failure_handling_witness :
    analyzer_load_data (.failure "boom") ≠ .ok [] :=
  (load_failure_handling "boom").2.2.1 []

/-- C1: an unpaid sentinel entry with a present, non-blank Anmerkung is
split at commas into trimmed non-empty participant names; each listed
participant is credited `count · (1/N)` open boxes (N the number of listed
names), the credits of the entry sum to exactly 1 when the list is
non-empty, and an empty list credits nothing. -/
theorem shared_entry_apportionment (df : List Row) (r : Row)
    (hopen : r.status = "Offen")
    (hsent : pyLower (pyStrip r.name) = sharedSentinel)
    (h1 : anmerkungStr r.anmerkung ≠ "") (h2 : anmerkungStr r.anmerkung ≠ "nan") :
    (∀ n ∈ parseSharedNames (anmerkungStr r.anmerkung), pyStrip n = n ∧ n ≠ "") ∧
    (∀ x, tallyOf (nameCounts (df ++ [r])) x =
        tallyOf (nameCounts df) x +
          (parseSharedNames (anmerkungStr r.anmerkung)).count x *
            (if (parseSharedNames (anmerkungStr r.anmerkung)).length = 0 then (0 : ℚ)
             else 1 / ((parseSharedNames (anmerkungStr r.anmerkung)).length : ℚ))) ∧
    (parseSharedNames (anmerkungStr r.anmerkung) ≠ [] →
      grandTotal (nameCounts (df ++ [r])) = grandTotal (nameCounts df) + 1) ∧
    (parseSharedNames (anmerkungStr r.anmerkung) = [] →
      nameCounts (df ++ [r]) = nameCounts df) := by
  have hrw := nameCounts_append_offen df r hopen
  have hps := processOpenRow_eq_shared (nameCounts df) r hsent h1 h2
  refine ⟨fun n hn => parseSharedNames_trimmed hn, fun x => ?_, fun hne => ?_, fun he => ?_⟩
  · rw [hrw, hps, tallyOf_foldl_addCount]
  · rw [hrw, hps, grandTotal_foldl_addCount]
    have hL : (parseSharedNames (anmerkungStr r.anmerkung)).length ≠ 0 := by
      simpa using hne
    rw [if_neg hL]
    have hQ : ((parseSharedNames (anmerkungStr r.anmerkung)).length : ℚ) ≠ 0 := by
      exact_mod_cast hL
    field_simp
  · rw [hrw, hps, he]
    rfl

/-- Witness for C1: one shared entry listing "A, C" adds exactly one open
box in total. -/
theorem shared_entry_apportionment_witness :
    parseSharedNames (anmerkungStr
      (loadRow ⟨"geteilte Kisten", some "", none, some "A, C"⟩).anmerkung) ≠ [] ∧
    grandTotal (nameCounts (load_data [⟨"B", some "", none, none⟩] ++
        [loadRow ⟨"geteilte Kisten", some "", none, some "A, C"⟩])) =
      grandTotal (nameCounts (load_data [⟨"B", some "", none, none⟩])) + 1 :=
  ⟨by decide,
    (shared_entry_apportionment (load_data [⟨"B", some "", none, none⟩])
      (loadRow ⟨"geteilte Kisten", some "", none, some "A, C"⟩)
      (by decide) (by decide) (by decide) (by decide)).2.2.1 (by decide)⟩

end Kistelnliste

namespace Kistelnliste

/-- Counterexample for C2: the sentinel compared against is the German
"geteilte kisten", not the English "shared boxes".  An unpaid entry
literally named "shared boxes" (with participants listed in the Anmerkung)
is credited one full box under its own name and is not apportioned, while
an entry named "geteilte Kisten" is apportioned. -/
theorem shared_boxes_name_counterexample :
    processOpenRow []
      { name := "shared boxes", bezahlt := "", status := "Offen",
        grund := none, anmerkung := some "A, B" } = [("shared boxes", 1)] ∧
    processOpenRow []
      { name := "geteilte Kisten", bezahlt := "", status := "Offen",
        grund := none, anmerkung := some "A, B" } = [("A", 1/2), ("B", 1/2)] := by
  constructor
  · simp +decide [processOpenRow, pyStrip, pySpace, addCount]
  · simp +decide [processOpenRow, parseSharedNames, pySplitComma, splitCommaAux,
      pyStrip, pySpace, addCount]

/-- C2 (amended): apportionment of the Anmerkung is triggered exactly when
the entry's stripped name, lowercased, equals the sentinel
"geteilte kisten" (the spec's "shared boxes", in German); an entry with any
other name is credited one full unit under its stripped name. -/
theorem sentinel_trigger (m : List (String × ℚ)) (r : Row) (x : String) :
    tallyOf (processOpenRow m r) x =
      tallyOf m x +
        (if pyLower (pyStrip r.name) = sharedSentinel then apportionCredit r x
         else if x = pyStrip r.name then 1 else 0) :=
  tallyOf_processOpenRow m r x

end Kistelnliste

namespace Kistelnliste

/-- Counterexample for C4: on the spec's example input, written with the
literal name "shared boxes", the code does not apportion anything — the
entry is an ordinary name, so A and C get no open credit and "shared boxes"
itself is credited one open box.  (A's paid count and B's open box agree
with the claim.) -/
theorem example_input_counterexample :
    countBezahlt (load_data [⟨"A", some "J", none, none⟩, ⟨"B", some "", none, none⟩,
      ⟨"shared boxes", some "", none, some "A, C"⟩]) "A" = 1 ∧
    tallyOf (nameCounts (load_data [⟨"A", some "J", none, none⟩,
      ⟨"B", some "", none, none⟩,
      ⟨"shared boxes", some "", none, some "A, C"⟩])) "B" = 1 ∧
    tallyOf (nameCounts (load_data [⟨"A", some "J", none, none⟩,
      ⟨"B", some "", none, none⟩,
      ⟨"shared boxes", some "", none, some "A, C"⟩])) "A" = 0 ∧
    tallyOf (nameCounts (load_data [⟨"A", some "J", none, none⟩,
      ⟨"B", some "", none, none⟩,
      ⟨"shared boxes", some "", none, some "A, C"⟩])) "C" = 0 ∧
    tallyOf (nameCounts (load_data [⟨"A", some "J", none, none⟩,
      ⟨"B", some "", none, none⟩,
      ⟨"shared boxes", some "", none, some "A, C"⟩])) "shared boxes" = 1 := by
  refine ⟨by decide, ?_, ?_, ?_, ?_⟩ <;>
    simp +decide [load_data, loadRow, nameCounts, processOpenRow, addCount, tallyOf,
      pyStrip, pySpace, pyLower, anmerkungStr]

/-- C4 (amended): the spec's example with the sentinel written as the code
spells it, "geteilte Kisten": A has paid count 1 and open credit 0.5, B has
one open box, C has open credit 0.5. -/
theorem example_input_amended :
    countBezahlt (load_data [⟨"A", some "J", none, none⟩, ⟨"B", some "", none, none⟩,
      ⟨"geteilte Kisten", some "", none, some "A, C"⟩]) "A" = 1 ∧
    tallyOf (nameCounts (load_data [⟨"A", some "J", none, none⟩,
      ⟨"B", some "", none, none⟩,
      ⟨"geteilte Kisten", some "", none, some "A, C"⟩])) "A" = 1/2 ∧
    countOffen (load_data [⟨"A", some "J", none, none⟩, ⟨"B", some "", none, none⟩,
      ⟨"geteilte Kisten", some "", none, some "A, C"⟩]) "B" = 1 ∧
    tallyOf (nameCounts (load_data [⟨"A", some "J", none, none⟩,
      ⟨"B", some "", none, none⟩,
      ⟨"geteilte Kisten", some "", none, some "A, C"⟩])) "B" = 1 ∧
    tallyOf (nameCounts (load_data [⟨"A", some "J", none, none⟩,
      ⟨"B", some "", none, none⟩,
      ⟨"geteilte Kisten", some "", none, some "A, C"⟩])) "C" = 1/2 := by
  refine ⟨by decide, ?_, by decide, ?_, ?_⟩ <;>
    simp +decide [load_data, loadRow, nameCounts, processOpenRow, addCount, tallyOf,
      parseSharedNames, pySplitComma, splitCommaAux,
      pyStrip, pySpace, pyLower, anmerkungStr]

end Kistelnliste

namespace Kistelnliste

theorem loadRow_status_dichotomy (e : RawEntry) :
    (loadRow e).status = "Bezahlt" ∨ (loadRow e).status = "Offen" := by
  by_cases h : pyStrip (e.bezahlt.getD "") = "J"
  · left; simp [loadRow, h]
  · right; simp [loadRow, h]

theorem countP_partition :
    ∀ df : List Row, (∀ r ∈ df, r.status = "Bezahlt" ∨ r.status = "Offen") →
      ∀ p, countBezahlt df p + countOffen df p = countTotal df p := by
  intro df
  induction df with
  | nil => intro _ _; rfl
  | cons r t ih =>
    intro hdf p
    have hr := hdf r (List.mem_cons_self r t)
    have iht := ih (fun x hx => hdf x (List.mem_cons_of_mem r hx)) p
    simp only [countBezahlt, countOffen, countTotal, List.countP_cons] at *
    by_cases hn : r.name = p
    · rcases hr with hb | hb <;> simp [hb, hn] <;> omega
    · simp [hn]
      omega

theorem countBezahlt_add_countOffen (input : List RawEntry) (p : String) :
    countBezahlt (load_data input) p + countOffen (load_data input) p =
      countTotal (load_data input) p := by
  refine countP_partition (load_data input) (fun r hr => ?_) p
  obtain ⟨e, _, rfl⟩ := List.mem_map.1 hr
  exact loadRow_status_dichotomy e

/-- C6: for every loaded table and person, the per-person paid count plus
the per-person unpaid count equals that person's total entry count, and
every bar of the per-person chart satisfies Gesamt = Bezahlt + Offen with
Gesamt the person's total entry count.  (Fractional shared contributions
live in the separate open-boxes table and do not enter these counts.) -/
theorem paid_plus_open_eq_total (input : List RawEntry) :
    (∀ p, countBezahlt (load_data input) p + countOffen (load_data input) p =
      countTotal (load_data input) p) ∧
    (∀ s ∈ create_person_chart (load_data input),
      s.gesamt = s.bezahlt + s.offen ∧
      s.bezahlt = countBezahlt (load_data input) s.name ∧
      s.offen = countOffen (load_data input) s.name ∧
      s.gesamt = countTotal (load_data input) s.name) := by
  refine ⟨countBezahlt_add_countOffen input, fun s hs => ?_⟩
  have hb : s ∈ ((value_counts (load_data input)).map Prod.fst).map (fun n =>
      { name := n
        bezahlt := countBezahlt (load_data input) n
        offen := countOffen (load_data input) n
        gesamt := countBezahlt (load_data input) n +
          countOffen (load_data input) n : PersonStat }) :=
    (List.mergeSort_perm _ _).mem_iff.mp hs
  obtain ⟨n, _, rfl⟩ := List.mem_map.1 hb
  exact ⟨rfl, rfl, rfl, countBezahlt_add_countOffen input n⟩

/-- Witness for C6 on a small concrete table containing a shared entry. -/
theorem paid_plus_open_eq_total_witness :
    countBezahlt (load_data [⟨"A", some "J", none, none⟩,
        ⟨"A", some "", none, none⟩, ⟨"geteilte Kisten", some "", none, some "A"⟩]) "A" +
      countOffen (load_data [⟨"A", some "J", none, none⟩,
        ⟨"A", some "", none, none⟩, ⟨"geteilte Kisten", some "", none, some "A"⟩]) "A" =
    countTotal (load_data [⟨"A", some "J", none, none⟩,
        ⟨"A", some "", none, none⟩, ⟨"geteilte Kisten", some "", none, some "A"⟩]) "A" :=
  (paid_plus_open_eq_total [⟨"A", some "J", none, none⟩,
    ⟨"A", some "", none, none⟩, ⟨"geteilte Kisten", some "", none, some "A"⟩]).1 "A"

end Kistelnliste

namespace Kistelnliste

theorem nodup_keysOf_processOpenRow (m : List (String × ℚ)) (r : Row)
    (h : (keysOf m).Nodup) : (keysOf (processOpenRow m r)).Nodup := by
  by_cases h1 : pyLower (pyStrip r.name) = sharedSentinel
  · by_cases hg : anmerkungStr r.anmerkung ≠ "" ∧ anmerkungStr r.anmerkung ≠ "nan"
    · rw [processOpenRow_eq_shared m r h1 hg.1 hg.2]
      exact nodup_keysOf_foldl_addCount _ _ _ h
    · rw [processOpenRow_eq_skip m r h1 (by tauto)]
      exact h
  · rw [processOpenRow_eq_normal m r h1]
    exact nodup_keysOf_addCount _ _ _ h

theorem nodup_keysOf_foldl_processOpenRow :
    ∀ (l : List Row) (m : List (String × ℚ)), (keysOf m).Nodup →
      (keysOf (l.foldl processOpenRow m)).Nodup := by
  intro l
  induction l with
  | nil => exact fun m h => h
  | cons r t ih => exact fun m h => ih _ (nodup_keysOf_processOpenRow m r h)

theorem nodup_keysOf_nameCounts (df : List Row) : (keysOf (nameCounts df)).Nodup :=
  nodup_keysOf_foldl_processOpenRow _ [] List.nodup_nil

/-- C10: in the open-boxes table every person appears in at most one row,
the rows are in non-increasing order of the open-boxes value, and each
value is the person's fully accumulated credit, rounded to 2 decimals only
after accumulation. -/
theorem open_boxes_table_invariants (df : List Row) :
    ((create_open_boxes_table df).map Prod.fst).Nodup ∧
    (create_open_boxes_table df).Pairwise (fun a b => b.2 ≤ a.2) ∧
    (∀ p ∈ create_open_boxes_table df,
      p.2 = round2 (tallyOf (nameCounts df) p.1)) := by
  refine ⟨?_, ?_, ?_⟩
  · have h1 : (create_open_boxes_table df).map Prod.fst =
        (sortOpenDesc (nameCounts df)).map Prod.fst := by
      simp [create_open_boxes_table, List.map_map, Function.comp]
    have h2 : ((sortOpenDesc (nameCounts df)).map Prod.fst).Perm
        ((nameCounts df).map Prod.fst) := (sortOpenDesc_perm _).map _
    rw [h1, h2.nodup_iff]
    exact nodup_keysOf_nameCounts df
  · rw [create_open_boxes_table, List.pairwise_map]
    exact (sortOpenDesc_sorted (nameCounts df)).imp (fun h => round2_mono h)
  · intro p hp
    rw [create_open_boxes_table] at hp
    obtain ⟨q, hq, rfl⟩ := List.mem_map.1 hp
    have hq' : q ∈ nameCounts df := (sortOpenDesc_perm _).mem_iff.mp hq
    have h3 : tallyOf (nameCounts df) q.1 = q.2 :=
      tallyOf_eq_of_mem (nodup_keysOf_nameCounts df) (by simpa using hq')
    simp [h3]

/-- Witness for C10: the single unpaid entry "A" yields the row ("A", 1),
whose value is the rounded accumulated tally. -/
theorem open_boxes_table_invariants_witness :
    ("A", (1 : ℚ)) ∈ create_open_boxes_table (load_data [⟨"A", some "", none, none⟩]) ∧
    (1 : ℚ) = round2 (tallyOf (nameCounts (load_data [⟨"A", some "", none, none⟩])) "A") := by
  have hmem : ("A", (1 : ℚ)) ∈
      create_open_boxes_table (load_data [⟨"A", some "", none, none⟩]) := by
    simp +decide [create_open_boxes_table, sortOpenDesc, nameCounts, load_data, loadRow,
      processOpenRow, addCount, pyStrip, pySpace, pyLower, round2]
  exact ⟨hmem,
    (open_boxes_table_invariants (load_data [⟨"A", some "", none, none⟩])).2.2 _ hmem⟩

end Kistelnliste

namespace Kistelnliste

theorem open_boxes_names_perm (df : List Row) :
    ((create_open_boxes_table df).map Prod.fst).Perm (keysOf (nameCounts df)) := by
  have h1 : (create_open_boxes_table df).map Prod.fst =
      (sortOpenDesc (nameCounts df)).map Prod.fst := by
    simp [create_open_boxes_table, List.map_map, Function.comp]
  rw [h1]
  exact (sortOpenDesc_perm _).map _

theorem sentinel_not_mem_keys_foldl :
    ∀ (l : List Row) (m : List (String × ℚ)),
      (∀ r ∈ l, pyLower (pyStrip r.name) = sharedSentinel →
        sharedSentinel ∉ parseSharedNames (anmerkungStr r.anmerkung)) →
      sharedSentinel ∉ keysOf m →
      sharedSentinel ∉ keysOf (l.foldl processOpenRow m) := by
  intro l
  induction l with
  | nil => exact fun m _ hm => hm
  | cons r t ih =>
    intro m hl hm
    refine ih _ (fun x hx => hl x (List.mem_cons_of_mem r hx)) ?_
    by_cases h1 : pyLower (pyStrip r.name) = sharedSentinel
    · by_cases hg : anmerkungStr r.anmerkung ≠ "" ∧ anmerkungStr r.anmerkung ≠ "nan"
      · rw [processOpenRow_eq_shared m r h1 hg.1 hg.2]
        intro hmem
        rcases (mem_keysOf_foldl_addCount _ _ _).1 hmem with hc | hc
        · exact hm hc
        · exact hl r (List.mem_cons_self r t) h1 hc
      · rw [processOpenRow_eq_skip m r h1 (by tauto)]
        exact hm
    · rw [processOpenRow_eq_normal m r h1]
      intro hmem
      rcases (mem_keysOf_addCount m _ 1).1 hmem with hc | hc
      · exact hm hc
      · apply h1
        rw [← hc, pyLower_sharedSentinel]

/-- Counterexample for C8: when the sentinel name itself is listed as a
participant in a shared entry's Anmerkung, it does appear as a person in
the open-boxes table. -/
theorem sentinel_in_open_table_counterexample :
    sharedSentinel ∈ (create_open_boxes_table (load_data
      [⟨"geteilte Kisten", some "", none, some "geteilte kisten"⟩])).map Prod.fst := by
  simp +decide [create_open_boxes_table, sortOpenDesc, nameCounts, load_data, loadRow,
    processOpenRow, addCount, parseSharedNames, pySplitComma, splitCommaAux,
    pyStrip, pySpace, pyLower, anmerkungStr, sharedSentinel]

/-- C8 (amended): the sentinel is never credited under its own entry name —
it can appear in the open-boxes table only when some unpaid sentinel
entry's Anmerkung lists it as a participant; an unpaid sentinel entry with
a missing or blank Anmerkung contributes nothing, so the sum of the
per-person open-boxes values can be strictly below the global unpaid
count. -/
theorem sentinel_absent_from_open_table :
    (∀ df : List Row,
      (∀ r ∈ df, r.status = "Offen" → pyLower (pyStrip r.name) = sharedSentinel →
        sharedSentinel ∉ parseSharedNames (anmerkungStr r.anmerkung)) →
      sharedSentinel ∉ (create_open_boxes_table df).map Prod.fst) ∧
    nameCounts (load_data [⟨"geteilte Kisten", some "", none, none⟩]) = [] ∧
    ((create_open_boxes_table (load_data
        [⟨"geteilte Kisten", some "", none, none⟩])).map Prod.snd).sum <
      (offenCountGlobal (load_data [⟨"geteilte Kisten", some "", none, none⟩]) : ℚ) := by
  refine ⟨fun df hdf => ?_, by decide, ?_⟩
  · have hkey := sentinel_not_mem_keys_foldl (df.filter (fun r => r.status == "Offen")) []
      (fun x hx => by
        have hx' := List.mem_filter.1 hx
        exact hdf x hx'.1 (by simpa using hx'.2))
      (by simp [keysOf])
    intro hmem
    exact hkey ((open_boxes_names_perm df).mem_iff.mp hmem)
  · have he : nameCounts (load_data [⟨"geteilte Kisten", some "", none, none⟩]) = [] := by
      decide
    rw [create_open_boxes_table, he]
    simp +decide [sortOpenDesc, offenCountGlobal, load_data, loadRow, pyStrip, pySpace]

/-- Witness for C8: on a table without sentinel-listing annotations the
sentinel does not appear in the open-boxes table. -/
theorem sentinel_absent_from_open_table_witness :
    sharedSentinel ∉ (create_open_boxes_table
      (load_data [⟨"A", some "", none, none⟩])).map Prod.fst :=
  sentinel_absent_from_open_table.1 (load_data [⟨"A", some "", none, none⟩]) (by decide)

end Kistelnliste

namespace Kistelnliste

/-! ### First-appearance uniques -/

theorem mem_uniqAux {x : String} :
    ∀ (l seen : List String), x ∈ uniqAux seen l ↔ x ∈ l ∧ x ∉ seen := by
  intro l
  induction l with
  | nil => intro seen; simp [uniqAux]
  | cons n rest ih =>
    intro seen
    by_cases hn : n ∈ seen
    · rw [uniqAux, if_pos hn, ih]
      constructor
      · exact fun ⟨h1, h2⟩ => ⟨List.mem_cons_of_mem n h1, h2⟩
      · rintro ⟨h1, h2⟩
        rcases List.mem_cons.1 h1 with rfl | h1
        · exact absurd hn h2
        · exact ⟨h1, h2⟩
    · rw [uniqAux, if_neg hn]
      constructor
      · intro hx
        rcases List.mem_cons.1 hx with rfl | hx
        · exact ⟨List.mem_cons_self x rest, hn⟩
        · have := (ih (n :: seen)).1 hx
          exact ⟨List.mem_cons_of_mem n this.1,
            fun hs => this.2 (List.mem_cons_of_mem n hs)⟩
      · rintro ⟨h1, h2⟩
        rcases List.mem_cons.1 h1 with rfl | h1
        · exact List.mem_cons_self x _
        · by_cases hxn : x = n
          · subst hxn; exact List.mem_cons_self x _
          · exact List.mem_cons_of_mem n ((ih (n :: seen)).2
              ⟨h1, fun hs => (List.mem_cons.1 hs).elim hxn h2⟩)

theorem nodup_uniqAux : ∀ (l seen : List String), (uniqAux seen l).Nodup := by
  intro l
  induction l with
  | nil => intro seen; simp [uniqAux]
  | cons n rest ih =>
    intro seen
    by_cases hn : n ∈ seen
    · rw [uniqAux, if_pos hn]; exact ih seen
    · rw [uniqAux, if_neg hn, List.nodup_cons]
      refine ⟨fun hmem => ?_, ih (n :: seen)⟩
      exact ((mem_uniqAux rest (n :: seen)).1 hmem).2 (List.mem_cons_self n seen)

theorem firstIdx_cons (n : String) (t : List String) (x : String) :
    firstIdx (n :: t) x = if n = x then 0 else firstIdx t x + 1 := by
  by_cases h : n = x <;> simp [firstIdx, List.takeWhile_cons, h]

theorem sublist_pair_uniqAux_firstIdx {x y : String} :
    ∀ (l seen : List String), [x, y].Sublist (uniqAux seen l) →
      firstIdx l x < firstIdx l y := by
  intro l
  induction l with
  | nil => intro seen h; rw [uniqAux] at h; cases h
  | cons n rest ih =>
    intro seen h
    by_cases hn : n ∈ seen
    · rw [uniqAux, if_pos hn] at h
      have hx : x ∈ uniqAux seen rest := h.subset (List.mem_cons_self x [y])
      have hy : y ∈ uniqAux seen rest :=
        h.subset (List.mem_cons_of_mem x (List.mem_cons_self y []))
      have hxn : x ≠ n := fun he => ((mem_uniqAux rest seen).1 hx).2 (he ▸ hn)
      have hyn : y ≠ n := fun he => ((mem_uniqAux rest seen).1 hy).2 (he ▸ hn)
      rw [firstIdx_cons, if_neg (fun he => hxn he.symm),
        firstIdx_cons, if_neg (fun he => hyn he.symm)]
      exact Nat.succ_lt_succ (ih seen h)
    · rw [uniqAux, if_neg hn] at h
      cases h with
      | cons _ h' =>
        have hx : x ∈ uniqAux (n :: seen) rest := h'.subset (List.mem_cons_self x [y])
        have hy : y ∈ uniqAux (n :: seen) rest :=
          h'.subset (List.mem_cons_of_mem x (List.mem_cons_self y []))
        have hxn : x ≠ n := fun he =>
          ((mem_uniqAux rest (n :: seen)).1 hx).2 (he ▸ List.mem_cons_self n seen)
        have hyn : y ≠ n := fun he =>
          ((mem_uniqAux rest (n :: seen)).1 hy).2 (he ▸ List.mem_cons_self n seen)
        rw [firstIdx_cons, if_neg (fun he => hxn he.symm),
          firstIdx_cons, if_neg (fun he => hyn he.symm)]
        exact Nat.succ_lt_succ (ih (n :: seen) h')
      | cons₂ _ h' =>
        have hy : y ∈ uniqAux (x :: seen) rest := by
          have hy0 : y ∈ [y] := List.mem_cons_self y []
          exact h'.subset hy0
        have hyn : y ≠ x := fun he =>
          ((mem_uniqAux rest (x :: seen)).1 hy).2 (he ▸ List.mem_cons_self x seen)
        rw [firstIdx_cons, if_pos rfl, firstIdx_cons, if_neg (fun he => hyn he.symm)]
        exact Nat.succ_pos _

theorem pair_sublist_of_mem_ne {α : Type} {x y : α} :
    ∀ l : List α, x ∈ l → y ∈ l → x ≠ y →
      [x, y].Sublist l ∨ [y, x].Sublist l := by
  intro l
  induction l with
  | nil => intro hx; simp at hx
  | cons h t ih =>
    intro hx hy hne
    rcases List.mem_cons.1 hx with rfl | hx'
    · left
      have hy' : y ∈ t := by
        rcases List.mem_cons.1 hy with rfl | hy'
        · exact absurd rfl hne
        · exact hy'
      exact (List.singleton_sublist.2 hy').cons₂ x
    · rcases List.mem_cons.1 hy with rfl | hy'
      · right
        exact (List.singleton_sublist.2 hx').cons₂ y
      · rcases ih hx' hy' hne with hs | hs
        · exact Or.inl (hs.cons h)
        · exact Or.inr (hs.cons h)

theorem not_pair_sublist_both_of_nodup {α : Type} {x y : α} :
    ∀ l : List α, l.Nodup → x ≠ y → [x, y].Sublist l → [y, x].Sublist l → False := by
  intro l
  induction l with
  | nil => intro _ _ hxy; cases hxy
  | cons h t ih =>
    intro hnd hne hxy hyx
    rw [List.nodup_cons] at hnd
    cases hxy with
    | cons _ hxy' =>
      cases hyx with
      | cons _ hyx' => exact ih hnd.2 hne hxy' hyx'
      | cons₂ _ hyx' =>
        exact hnd.1 (hxy'.subset (List.mem_cons_of_mem x (List.mem_cons_self y [])))
    | cons₂ _ hxy' =>
      cases hyx with
      | cons _ hyx' =>
        exact hnd.1 (hyx'.subset (List.mem_cons_of_mem y (List.mem_cons_self x [])))
      | cons₂ _ hyx' => exact hne rfl

theorem ne_of_pair_sublist_nodup {α : Type} [DecidableEq α] {x y : α} {l : List α}
    (hnd : l.Nodup) (h : [x, y].Sublist l) : x ≠ y := by
  intro he
  subst he
  have hc := h.count_le x
  simp [List.count_cons] at hc
  have h1 := List.nodup_iff_count_le_one.1 hnd x
  omega

end Kistelnliste

namespace Kistelnliste

/-! ### Value counts and the ranking table -/

theorem vc_trans (a b c : String × ℕ) :
    decide (b.2 ≤ a.2) = true → decide (c.2 ≤ b.2) = true →
      decide (c.2 ≤ a.2) = true := by
  simp only [decide_eq_true_eq]
  omega

theorem vc_total (a b : String × ℕ) :
    (decide (b.2 ≤ a.2) || decide (a.2 ≤ b.2)) = true := by
  rcases Nat.le_total a.2 b.2 with h | h <;> simp [h]

theorem value_counts_eq (df : List Row) :
    value_counts df = (baseCounts df).mergeSort (fun a b => decide (b.2 ≤ a.2)) := rfl

theorem value_counts_perm (df : List Row) :
    (value_counts df).Perm (baseCounts df) := List.mergeSort_perm _ _

theorem baseCounts_map_fst (df : List Row) :
    (baseCounts df).map Prod.fst = firstAppearanceUniques (namesOf df) := by
  rw [baseCounts, List.map_map]
  exact List.map_id _

theorem value_counts_names_perm (df : List Row) :
    ((value_counts df).map Prod.fst).Perm (firstAppearanceUniques (namesOf df)) := by
  have h := (value_counts_perm df).map Prod.fst
  rwa [baseCounts_map_fst] at h

theorem nodup_value_counts_names (df : List Row) :
    ((value_counts df).map Prod.fst).Nodup :=
  (value_counts_names_perm df).nodup_iff.mpr (nodup_uniqAux _ _)

theorem value_counts_sorted (df : List Row) :
    (value_counts df).Pairwise (fun a b => b.2 ≤ a.2) := by
  have h : ((baseCounts df).mergeSort (fun a b : String × ℕ =>
      decide (b.2 ≤ a.2))).Pairwise
      (fun a b : String × ℕ => decide (b.2 ≤ a.2) = true) :=
    List.sorted_mergeSort vc_trans vc_total (baseCounts df)
  rw [← value_counts_eq] at h
  exact h.imp (fun hab => of_decide_eq_true hab)

theorem withRanks_map_pair :
    ∀ (i : ℕ) (l : List (String × ℕ)),
      (withRanks i l).map (fun row => (row.name, row.anzahl)) = l := by
  intro i l
  induction l generalizing i with
  | nil => rfl
  | cons p t ih =>
    obtain ⟨n, c⟩ := p
    simp [withRanks, ih]

theorem withRanks_length (i : ℕ) (l : List (String × ℕ)) :
    (withRanks i l).length = l.length := by
  have h := congrArg List.length (withRanks_map_pair i l)
  simpa using h

theorem withRanks_map_rang :
    ∀ (i : ℕ) (l : List (String × ℕ)),
      (withRanks i l).map RankRow.rang = List.range' i l.length := by
  intro i l
  induction l generalizing i with
  | nil => rfl
  | cons p t ih =>
    obtain ⟨n, c⟩ := p
    simp [withRanks, ih, List.range']

theorem withRanks_medaille :
    ∀ (i : ℕ) (l : List (String × ℕ)) (row : RankRow), row ∈ withRanks i l →
      row.medaille = medalFor row.rang := by
  intro i l
  induction l generalizing i with
  | nil => intro row h; simp [withRanks] at h
  | cons p t ih =>
    obtain ⟨n, c⟩ := p
    intro row h
    rcases List.mem_cons.1 h with rfl | h'
    · rfl
    · exact ih (i + 1) row h'

/-- C5: the ranking table is in non-increasing order of the entry count;
rank numbers are consecutive 1..n in listed order; medals follow the rank
(three distinct markers for ranks 1-3, nothing otherwise); ties are broken
by the persons' original relative order (first appearance) in the input
column, thanks to the stability of the sort behind `value_counts`. -/
theorem ranking_table_spec (df : List Row) :
    (create_ranking_table df).Pairwise (fun a b => b.anzahl ≤ a.anzahl) ∧
    (create_ranking_table df).map RankRow.rang =
      List.range' 1 (create_ranking_table df).length ∧
    (∀ row ∈ create_ranking_table df, row.medaille = medalFor row.rang) ∧
    (medalFor 1 = "🥇" ∧ medalFor 2 = "🥈" ∧ medalFor 3 = "🥉" ∧
      medalFor 1 ≠ medalFor 2 ∧ medalFor 1 ≠ medalFor 3 ∧ medalFor 2 ≠ medalFor 3 ∧
      (∀ n, 3 < n → medalFor n = "")) ∧
    (∀ a b : RankRow, [a, b].Sublist (create_ranking_table df) →
      a.anzahl = b.anzahl →
      firstIdx (namesOf df) a.name < firstIdx (namesOf df) b.name) := by
  refine ⟨?_, ?_, ?_, ?_, ?_⟩
  · have h2 : ((create_ranking_table df).map
        (fun row => (row.name, row.anzahl))).Pairwise
        (fun p q : String × ℕ => q.2 ≤ p.2) := by
      rw [create_ranking_table, withRanks_map_pair]
      exact value_counts_sorted df
    rw [List.pairwise_map] at h2
    exact h2
  · rw [create_ranking_table, withRanks_map_rang, withRanks_length]
  · exact fun row hrow => withRanks_medaille 1 _ row hrow
  · refine ⟨rfl, rfl, rfl, by decide, by decide, by decide, fun n hn => ?_⟩
    rw [medalFor, if_neg (by omega), if_neg (by omega), if_neg (by omega)]
  · intro a b hsub heq
    have hsub' : [(a.name, a.anzahl), (b.name, b.anzahl)].Sublist (value_counts df) := by
      have h := hsub.map (fun row => (row.name, row.anzahl))
      rwa [create_ranking_table, withRanks_map_pair] at h
    have hnames : ((value_counts df).map Prod.fst).Nodup := nodup_value_counts_names df
    have hnd : (value_counts df).Nodup := hnames.of_map
    have hfst : [a.name, b.name].Sublist ((value_counts df).map Prod.fst) := by
      have h := hsub'.map Prod.fst
      simpa using h
    have hne_name : a.name ≠ b.name := ne_of_pair_sublist_nodup hnames hfst
    have hmema : (a.name, a.anzahl) ∈ baseCounts df :=
      (value_counts_perm df).subset (hsub'.subset (List.mem_cons_self _ _))
    have hmemb : (b.name, b.anzahl) ∈ baseCounts df :=
      (value_counts_perm df).subset
        (hsub'.subset (List.mem_cons_of_mem _ (List.mem_cons_self _ _)))
    have hne_pair : ((a.name, a.anzahl) : String × ℕ) ≠ (b.name, b.anzahl) :=
      fun he => hne_name (congrArg Prod.fst he)
    rcases pair_sublist_of_mem_ne (baseCounts df) hmema hmemb hne_pair with hb | hb
    · have hfstb : [a.name, b.name].Sublist (firstAppearanceUniques (namesOf df)) := by
        have h := hb.map Prod.fst
        rwa [baseCounts_map_fst] at h
      exact sublist_pair_uniqAux_firstIdx (namesOf df) [] hfstb
    · exfalso
      have hpair : ([((b.name, b.anzahl) : String × ℕ), (a.name, a.anzahl)]).Pairwise
          (fun p q => decide (q.2 ≤ p.2) = true) := by
        rw [List.pairwise_pair]
        simp [heq]
      have hvc2 : [((b.name, b.anzahl) : String × ℕ), (a.name, a.anzahl)].Sublist
          (value_counts df) := by
        rw [value_counts_eq]
        exact List.sublist_mergeSort vc_trans vc_total hpair hb
      exact not_pair_sublist_both_of_nodup (value_counts df) hnd hne_pair hsub' hvc2

/-- Witness for C5: two tied persons keep their input order — "B" entered
first, so "B" is ranked before "A" and its first appearance is earlier. -/
theorem ranking_table_spec_witness :
    firstIdx (namesOf (load_data [⟨"B", some "", none, none⟩,
      ⟨"A", some "", none, none⟩])) "B" <
    firstIdx (namesOf (load_data [⟨"B", some "", none, none⟩,
      ⟨"A", some "", none, none⟩])) "A" := by
  have hvc : value_counts (load_data [⟨"B", some "", none, none⟩,
      ⟨"A", some "", none, none⟩]) = [("B", 1), ("A", 1)] := by
    have hbase : baseCounts (load_data [⟨"B", some "", none, none⟩,
        ⟨"A", some "", none, none⟩]) = [("B", 1), ("A", 1)] := by decide
    rw [value_counts_eq, hbase]
    exact List.mergeSort_of_sorted (List.pairwise_pair.mpr (by decide))
  have heq : create_ranking_table (load_data [⟨"B", some "", none, none⟩,
      ⟨"A", some "", none, none⟩]) =
      [⟨1, "🥇", "B", 1⟩, ⟨2, "🥈", "A", 1⟩] := by
    rw [create_ranking_table, hvc]
    rfl
  have h := (ranking_table_spec (load_data [⟨"B", some "", none, none⟩,
      ⟨"A", some "", none, none⟩])).2.2.2.2
    ⟨1, "🥇", "B", 1⟩ ⟨2, "🥈", "A", 1⟩ (by rw [heq]) rfl
  exact h

end Kistelnliste

namespace Kistelnliste

/-! ### The sentinel as an ordinary person in ranking and statistics -/

theorem ranking_names_eq (df : List Row) :
    (create_ranking_table df).map RankRow.name = (value_counts df).map Prod.fst := by
  have h := congrArg (List.map Prod.fst) (withRanks_map_pair 1 (value_counts df))
  rw [List.map_map] at h
  rw [create_ranking_table]
  exact h

theorem countTotal_eq_count (df : List Row) (p : String) :
    countTotal df p = (namesOf df).count p := by
  induction df with
  | nil => rfl
  | cons r t ih =>
    have hn : namesOf (r :: t) = r.name :: namesOf t := rfl
    rw [countTotal, List.countP_cons, hn, List.count_cons]
    rw [countTotal] at ih
    rw [ih]

theorem namesOf_filter_ne (df : List Row) (s : String) :
    namesOf (df.filter (fun r => r.name ≠ s)) =
      (namesOf df).filter (fun z => z ≠ s) := by
  induction df with
  | nil => rfl
  | cons r t ih =>
    have hn : namesOf (r :: t) = r.name :: namesOf t := rfl
    rw [hn, List.filter_cons, List.filter_cons]
    by_cases h : r.name = s
    · rw [if_neg (by simp [h]), if_neg (by simp [h])]
      exact ih
    · rw [if_pos (by simp [h]), if_pos (by simp [h])]
      have hn2 : namesOf (r :: t.filter (fun r => r.name ≠ s)) =
          r.name :: namesOf (t.filter (fun r => r.name ≠ s)) := rfl
      rw [hn2, ih]

theorem uniqAux_filter (s : String) :
    ∀ (l seen seen' : List String),
      (∀ z, z ≠ s → (z ∈ seen ↔ z ∈ seen')) →
      uniqAux seen (l.filter (fun z => z ≠ s)) =
        (uniqAux seen' l).filter (fun z => z ≠ s) := by
  intro l
  induction l with
  | nil => intro seen seen' _; rfl
  | cons n rest ih =>
    intro seen seen' hcond
    rw [List.filter_cons]
    by_cases hns : n = s
    · rw [if_neg (by simp [hns])]
      rw [uniqAux]
      by_cases hn' : n ∈ seen'
      · rw [if_pos hn']
        exact ih seen seen' hcond
      · rw [if_neg hn', List.filter_cons, if_neg (by simp [hns])]
        refine ih seen (n :: seen') (fun z hz => ?_)
        rw [hcond z hz, List.mem_cons]
        constructor
        · exact Or.inr
        · rintro (rfl | h)
          · exact absurd hns hz
          · exact h
    · rw [if_pos (by simp [hns])]
      rw [uniqAux, uniqAux]
      have hiff := hcond n hns
      by_cases hn : n ∈ seen
      · rw [if_pos hn, if_pos (hiff.1 hn)]
        exact ih seen seen' hcond
      · rw [if_neg hn, if_neg (fun h => hn (hiff.2 h)), List.filter_cons,
          if_pos (by simp [hns])]
        refine congrArg (n :: ·) (ih (n :: seen) (n :: seen') (fun z hz => ?_))
        rw [List.mem_cons, List.mem_cons, hcond z hz]

theorem length_filter_ne_of_nodup (s : String) :
    ∀ l : List String, l.Nodup → s ∈ l →
      l.length = (l.filter (fun z => z ≠ s)).length + 1 := by
  intro l
  induction l with
  | nil => simp
  | cons h t ih =>
    intro hnd hs
    rw [List.nodup_cons] at hnd
    rcases List.mem_cons.1 hs with rfl | hs'
    · have hft : t.filter (fun z => z ≠ s) = t :=
        List.filter_eq_self.mpr (fun x hx => by
          have hxs : x ≠ s := fun he => hnd.1 (he ▸ hx)
          simp [hxs])
      rw [List.filter_cons, if_neg (by simp), hft]
      simp
    · by_cases hh : h = s
      · exact absurd hs' (hh ▸ hnd.1)
      · rw [List.filter_cons, if_pos (by simpa using hh)]
        simp only [List.length_cons]
        rw [ih hnd.2 hs']

end Kistelnliste

namespace Kistelnliste

theorem nunique_split (df : List Row) (s : String) (h : s ∈ namesOf df) :
    nunique df = nunique (df.filter (fun r => r.name ≠ s)) + 1 := by
  show (firstAppearanceUniques (namesOf df)).length =
    (firstAppearanceUniques (namesOf (df.filter (fun r => r.name ≠ s)))).length + 1
  rw [namesOf_filter_ne df s, firstAppearanceUniques, firstAppearanceUniques,
    uniqAux_filter s (namesOf df) [] [] (fun z _ => Iff.rfl)]
  exact length_filter_ne_of_nodup s _ (nodup_uniqAux _ _)
    ((mem_uniqAux _ _).2 ⟨h, by simp⟩)

/-- C9: the ranking table and the distinct-person count treat any name —
the sentinel included — as an ordinary person: a name present in the table
appears in exactly one ranking row, that row's count is the number of
entries carrying the name, the name contributes exactly one distinct person
to `nunique`, and names that never occur in the Name column (such as
participants known only from annotations) never appear in the ranking. -/
theorem sentinel_ordinary_person (df : List Row) (s : String)
    (hmem : s ∈ namesOf df) :
    ((create_ranking_table df).map RankRow.name).count s = 1 ∧
    (∀ row ∈ create_ranking_table df, row.name = s →
      row.anzahl = countTotal df s) ∧
    (firstAppearanceUniques (namesOf df)).count s = 1 ∧
    nunique df = nunique (df.filter (fun r => r.name ≠ s)) + 1 ∧
    (∀ q, q ∉ namesOf df → q ∉ (create_ranking_table df).map RankRow.name) := by
  refine ⟨?_, ?_, ?_, nunique_split df s hmem, ?_⟩
  · rw [ranking_names_eq, (value_counts_names_perm df).count_eq]
    exact List.count_eq_one_of_mem (nodup_uniqAux _ _)
      ((mem_uniqAux _ _).2 ⟨hmem, by simp⟩)
  · intro row hrow hname
    have hp : (row.name, row.anzahl) ∈
        (create_ranking_table df).map (fun r => (r.name, r.anzahl)) :=
      List.mem_map_of_mem _ hrow
    rw [create_ranking_table, withRanks_map_pair] at hp
    have hb := (value_counts_perm df).subset hp
    obtain ⟨n, _, heq2⟩ := List.mem_map.1 hb
    have h1 : n = row.name := congrArg Prod.fst heq2
    have h2 : (namesOf df).count n = row.anzahl := congrArg Prod.snd heq2
    rw [← h2, h1, hname, countTotal_eq_count]
  · exact List.count_eq_one_of_mem (nodup_uniqAux _ _)
      ((mem_uniqAux _ _).2 ⟨hmem, by simp⟩)
  · intro q hq hqin
    rw [ranking_names_eq] at hqin
    have h1 := (value_counts_names_perm df).subset hqin
    exact hq ((mem_uniqAux _ _).1 h1).1

/-- Witness for C9: a table containing a sentinel entry, where the sentinel
contributes exactly one distinct person to the count. -/
theorem sentinel_ordinary_person_witness :
    (firstAppearanceUniques (namesOf (load_data
      [⟨"geteilte Kisten", some "J", none, none⟩,
       ⟨"A", some "", none, none⟩]))).count "geteilte Kisten" = 1 ∧
    nunique (load_data [⟨"geteilte Kisten", some "J", none, none⟩,
      ⟨"A", some "", none, none⟩]) =
      nunique ((load_data [⟨"geteilte Kisten", some "J", none, none⟩,
        ⟨"A", some "", none, none⟩]).filter
          (fun r => r.name ≠ "geteilte Kisten")) + 1 :=
  ⟨(sentinel_ordinary_person (load_data [⟨"geteilte Kisten", some "J", none, none⟩,
      ⟨"A", some "", none, none⟩]) "geteilte Kisten" (by decide)).2.2.1,
   (sentinel_ordinary_person (load_data [⟨"geteilte Kisten", some "J", none, none⟩,
      ⟨"A", some "", none, none⟩]) "geteilte Kisten" (by decide)).2.2.2.1⟩

end Kistelnliste
